import Mathlib

/-!
Verification of the filename-normalization and presence-matrix core of
`src/make_file_report.py`.

The embedding translates the three pure functions `clean_filename`,
`create_file_matrix` and `filter_matrix` into Lean, working on `List Char`
(a Python `str` is modelled as its sequence of code points; the regex
classes `\d` and `[a-z]`/`[A-Z]` are modelled over ASCII, `\s` as the set
of code points Python's `re` module treats as whitespace for `str`
patterns).  A pandas `DataFrame` is modelled by the `FileMatrix` structure
(row labels, the prepended `Number` column, column labels, and the cell
grid); `filter_matrix` returns an `Option` because `DataFrame.drop`
raises `KeyError` when the label is absent (the default `errors='raise'`).
-/

/-- The character class `\d` of Python's `re`, modelled over ASCII. -/
def isPyDigit (c : Char) : Bool := c.isDigit

/-- The character class `\s` of Python's `re` for `str` patterns
(also the set stripped by `str.strip()`). -/
def isPySpace (c : Char) : Bool :=
  c = ' ' || c = '\t' || c = '\n' || c = '\x0b' || c = '\x0c' || c = '\r' ||
  c = '\x1c' || c = '\x1d' || c = '\x1e' || c = '\x1f' || c = '\x85' || c = '\xa0' ||
  c = ' ' || (' ' ≤ c && c ≤ ' ') || c = ' ' || c = ' ' ||
  c = ' ' || c = ' ' || c = '　'

/-- Numeric value of a digit character. -/
def digitVal (c : Char) : Nat := c.toNat - 48

/-- Value of a big-endian list of decimal digit characters
(the effect of Python's `int()` on a plain digit string). -/
def natVal (ds : List Char) : Nat := ds.foldl (fun a c => 10 * a + digitVal c) 0

/-- Decimal rendering of a natural number, fuelled so that it is
structurally recursive (the fuel never runs out when it starts at `n + 1`). -/
def natDecimalAux : Nat → Nat → List Char
  | 0, _ => []
  | fuel + 1, n =>
    if n < 10 then [Nat.digitChar n]
    else natDecimalAux fuel (n / 10) ++ [Nat.digitChar (n % 10)]

/-- Decimal rendering of a natural number: the effect of Python's
`f"{number}"` on a non-negative `int`. -/
def natDecimal (n : Nat) : List Char := natDecimalAux (n + 1) n

/-- `filename.rsplit('.', 1)[0]`: everything before the last dot
(the whole string when there is no dot). -/
def stripExt (cs : List Char) : List Char :=
  let r := cs.reverse.dropWhile (fun c => c ≠ '.')
  if r.isEmpty then cs else r.tail.reverse

/-- The separator class `[-_\s]` of the number-prefix regex. -/
def isSepChar (c : Char) : Bool := isPySpace c || c = '-' || c = '_'

/-- `re.sub(r'^\d+\s*[-_\s]*', '', name)`: the anchored pattern matches only
when the string starts with a digit, and then greedily removes the digit
run, a whitespace run, and a run of separators. -/
def stripLeadingNumber (cs : List Char) : List Char :=
  match cs with
  | [] => []
  | c :: _ => if isPyDigit c then (cs.dropWhile isPyDigit).dropWhile isSepChar else cs

/-- The literal `O'Clock` lowered, as a code-point list. -/
def oclock : List Char := ['o', '\x27', 'c', 'l', 'o', 'c', 'k']

/-- `re.sub(r"^\d+\s+O'Clock\s+", '', name, flags=re.IGNORECASE)`:
digit run, then a whitespace run, then the literal `O'Clock`
case-insensitively, then a whitespace run — all removed when the whole
anchored pattern matches, otherwise a no-op. -/
def stripOClock (cs : List Char) : List Char :=
  if (cs.takeWhile isPyDigit).isEmpty then cs else
  let r1 := cs.dropWhile isPyDigit
  if (r1.takeWhile isPySpace).isEmpty then cs else
  let r2 := r1.dropWhile isPySpace
  if (r2.take 7).map Char.toLower = oclock then
    let r3 := r2.drop 7
    if (r3.takeWhile isPySpace).isEmpty then cs else r3.dropWhile isPySpace
  else cs

/-- `name.replace('_', ' ')`. -/
def underscoreToSpace (cs : List Char) : List Char :=
  cs.map (fun c => if c = '_' then ' ' else c)

/-- Case-insensitive (ASCII) prefix test against an already-lowered keyword. -/
def startsCaseless (cs : List Char) (kw : List Char) : Bool :=
  (cs.take kw.length).map Char.toLower = kw

/-- Which alternative of `(alto\d*|flute|drums|bass|soprano|edit|orig|concert|NEW)`
matches at the head of `cs`, returning the length of the matched literal.
The alternatives start with pairwise distinct letters, so at most one can
match; the `\d*` of `alto\d*` is irrelevant to match success because the
following `.*$` absorbs any digits. -/
def keywordLenAt (cs : List Char) : Option Nat :=
  if startsCaseless cs ['a', 'l', 't', 'o'] then some 4
  else if startsCaseless cs ['f', 'l', 'u', 't', 'e'] then some 5
  else if startsCaseless cs ['d', 'r', 'u', 'm', 's'] then some 5
  else if startsCaseless cs ['b', 'a', 's', 's'] then some 4
  else if startsCaseless cs ['s', 'o', 'p', 'r', 'a', 'n', 'o'] then some 7
  else if startsCaseless cs ['e', 'd', 'i', 't'] then some 4
  else if startsCaseless cs ['o', 'r', 'i', 'g'] then some 4
  else if startsCaseless cs ['c', 'o', 'n', 'c', 'e', 'r', 't'] then some 7
  else if startsCaseless cs ['n', 'e', 'w'] then some 3
  else none

/-- Success of `.*$` (no DOTALL, no MULTILINE) on the suffix `cs` of the
subject: `.` stops at a newline and `$` matches only at the end of the
subject or just before a trailing newline, so the tail may contain a
newline only as the very last character of the subject. -/
def dollarOk (cs : List Char) : Bool := cs.dropLast.all (fun c => c ≠ '\n')

/-- Does `\s+(alto\d*|flute|drums|bass|soprano|edit|orig|concert|NEW).*$`
match starting exactly at the head of `cs` (a suffix of the subject)?
`\s+` must end at the maximal whitespace run (the keyword starts with a
letter), after which a keyword and then `.*$` must match. -/
def suffixHit (cs : List Char) : Bool :=
  match cs with
  | [] => false
  | c :: rest =>
    isPySpace c &&
      (let r := rest.dropWhile isPySpace
       match keywordLenAt r with
       | some k => dollarOk (r.drop k)
       | none => false)

/-- Index of the leftmost match of the instrument-suffix pattern. -/
def findSuffixIdx : List Char → Option Nat
  | [] => none
  | c :: rest =>
    if suffixHit (c :: rest) then some 0
    else (findSuffixIdx rest).map (· + 1)

/-- `re.sub(r'\s+(alto\d*|...|NEW).*$', '', name, flags=re.IGNORECASE)`:
removes from the leftmost match to the end; when `$` matched just before a
trailing newline of the subject, that newline survives the substitution. -/
def stripSuffixKeyword (cs : List Char) : List Char :=
  match findSuffixIdx cs with
  | none => cs
  | some i => cs.take i ++ (if cs.getLast? = some '\n' then ['\n'] else [])

/-- Does `\s*[\(\-].*$` match starting exactly at the head of `cs`?
`\s*` must end at the maximal whitespace run (`(` and `-` are not
whitespace), possibly of length zero. -/
def parenHit (cs : List Char) : Bool :=
  match cs.dropWhile isPySpace with
  | [] => false
  | d :: r => (d = '(' || d = '-') && dollarOk r

/-- Index of the leftmost match of the parenthesis/dash pattern. -/
def findParenIdx : List Char → Option Nat
  | [] => none
  | c :: rest => if parenHit (c :: rest) then some 0 else (findParenIdx rest).map (· + 1)

/-- `re.sub(r'\s*[\(\-].*$', '', name)`: removes from the leftmost match to
the end, keeping a trailing newline of the subject when `$` stopped
before it. -/
def stripParenDash (cs : List Char) : List Char :=
  match findParenIdx cs with
  | none => cs
  | some i => cs.take i ++ (if cs.getLast? = some '\n' then ['\n'] else [])

/-- The class of the apostrophe/comma/period/digit removal
`re.sub(r"[''‘’,.\d]", '', name)` (the pattern lists the ASCII
apostrophe twice, then the two curly quotes, comma, period, digits). -/
def isPunctToRemove (c : Char) : Bool :=
  c = '\x27' || c = '‘' || c = '’' || c = ',' || c = '.' || isPyDigit c

/-- Deletes every character of the punctuation/digit class. -/
def stripPunct (cs : List Char) : List Char := cs.filter (fun c => !isPunctToRemove c)

/-- `re.sub(r'([a-z])([A-Z])', r'\1 \2', name)`: inserts a space between an
ASCII lowercase letter and an immediately following ASCII uppercase letter;
scanning resumes after each replaced pair. -/
def camelSplit : List Char → List Char
  | [] => []
  | [c] => [c]
  | c1 :: c2 :: rest =>
    if c1.isLower && c2.isUpper then c1 :: ' ' :: c2 :: camelSplit rest
    else c1 :: camelSplit (c2 :: rest)

/-- `re.sub(r'\s+', ' ', name)`: every maximal whitespace run becomes one
space (the last character of a run emits the space). -/
def collapseWs : List Char → List Char
  | [] => []
  | [c] => if isPySpace c then [' '] else [c]
  | c :: d :: rest =>
    if isPySpace c then
      if isPySpace d then collapseWs (d :: rest)
      else ' ' :: collapseWs (d :: rest)
    else c :: collapseWs (d :: rest)

/-- Removes the trailing run of characters satisfying `p`. -/
def dropTrailing (p : Char → Bool) (cs : List Char) : List Char :=
  List.rdropWhile p cs

/-- `name.strip()`. -/
def pyStrip (cs : List Char) : List Char := dropTrailing isPySpace (cs.dropWhile isPySpace)

/-- `name.rstrip('-')`: removes every trailing hyphen. -/
def rstripDash (cs : List Char) : List Char := dropTrailing (fun c => c = '-') cs

/-- `name.lower()`, over ASCII. -/
def lowerAll (cs : List Char) : List Char := cs.map Char.toLower

/-- Steps 3–12 of `clean_filename`, applied to the extension-stripped name. -/
def cleanName (cs : List Char) : List Char :=
  lowerAll (pyStrip (rstripDash (pyStrip (collapseWs (camelSplit (stripPunct
    (stripParenDash (stripSuffixKeyword (underscoreToSpace (stripOClock
      (stripLeadingNumber cs)))))))))))

/-- `clean_filename` of `make_file_report.py`: empty string signals
"discard"; otherwise returns `f"{number} {name}"`. -/
def clean_filename (filename : String) : String :=
  let ds := filename.data.takeWhile isPyDigit
  if ds.isEmpty then "" else
  let name := cleanName (stripExt filename.data)
  if name.isEmpty then "" else ⟨natDecimal (natVal ds) ++ ' ' :: name⟩

/-- A node of the recursive Drive listing produced by
`download_responses`: a leaf file (its metadata is irrelevant to the
matrix, which only reads names) or a subfolder mapping titles to nodes. -/
inductive DriveEntry
  | file : DriveEntry
  | folder : List (String × DriveEntry) → DriveEntry

/-- Python `sorted` on strings: ascending lexicographic by code point. -/
def sortStrings (l : List String) : List String := l.insertionSort (fun a b => a ≤ b)

/-- The folder-valued top-level entries of the listing
(`GoogleDriveFile` leaves are skipped by `create_file_matrix`). -/
def folderEntries (fd : List (String × DriveEntry)) :
    List (String × List (String × DriveEntry)) :=
  fd.filterMap (fun p => match p.2 with
    | .file => none
    | .folder files => some (p.1, files))

/-- Canonical keys of one folder: `clean_filename` over its entry names. -/
def folderKeys (files : List (String × DriveEntry)) : List String :=
  files.map (fun q => clean_filename q.1)

/-- `cleaned_dict`: folder name to canonical key list. -/
def cleanedDict (fd : List (String × DriveEntry)) : List (String × List String) :=
  (folderEntries fd).map (fun p => (p.1, folderKeys p.2))

/-- Indexing a Python dict built by repeated assignment over an
association list: the last binding of a key wins; absent keys give the
empty key list (never reached on well-formed input). -/
def lookupLast (l : List (String × List String)) (k : String) : List String :=
  ((l.filter (fun p => p.1 = k)).getLast?).elim [] Prod.snd

/-- Digit-group parser of Python `int()`: ASCII digits with single
underscores strictly between digits. -/
def pyDigitsAux : List Char → Nat → Bool → Option Nat
  | [], acc, prevDigit => if prevDigit then some acc else none
  | c :: rest, acc, prevDigit =>
    if isPyDigit c then pyDigitsAux rest (10 * acc + digitVal c) true
    else if c = '_' && prevDigit then pyDigitsAux rest acc false
    else none

/-- The numpy `int64` conversion at the end of `astype(int)` (on 64-bit
Linux, pandas converts to a C long): values outside
`[-2^63, 2^63 - 1]` raise `OverflowError`, modelled as `none`. -/
def int64Check (v : Int) : Option Int :=
  if -9223372036854775808 ≤ v ∧ v ≤ 9223372036854775807 then some v else none

/-- `astype(int)` on a string cell, over ASCII: Python `int()` parses
optional surrounding whitespace, an optional sign, and a non-empty digit
group (unbounded; `none` models a raised `ValueError`), and the result is
then converted to a fixed-width numpy `int64`, which raises
`OverflowError` (`none`) when the value exceeds the 64-bit range. -/
def pyInt? (s : String) : Option Int :=
  match dropTrailing isPySpace (s.data.dropWhile isPySpace) with
  | [] => none
  | c :: rest =>
    if c = '+' then ((pyDigitsAux rest 0 false).map (fun n => (n : Int))).bind int64Check
    else if c = '-' then
      ((pyDigitsAux rest 0 false).map (fun n => -(n : Int))).bind int64Check
    else ((pyDigitsAux (c :: rest) 0 false).map (fun n => (n : Int))).bind int64Check

/-- `.str.split(' ').str[0]`: the prefix before the first space
(the whole string when it has no space). -/
def firstTok (s : String) : String := ⟨s.data.takeWhile (fun c => c ≠ ' ')⟩

/-- The published DataFrame: sorted row labels, the prepended `Number`
column (`none` modelling an `astype(int)` failure), sorted column labels,
and the row-major grid of `"yes"`/`"no"` cells. -/
structure FileMatrix where
  rows : List String
  numbers : List (Option Int)
  cols : List String
  cells : List (List String)
deriving Repr, DecidableEq

/-- `create_file_matrix` of `make_file_report.py`: the key set is the
union of the per-folder canonical key sets with `''` discarded (the code
unions into a `set` and then discards `''`; filtering before
deduplicating yields the same set). -/
def create_file_matrix (fd : List (String × DriveEntry)) : FileMatrix :=
  let cleaned := cleanedDict fd
  let allKeys := (((cleaned.map Prod.snd).flatten).filter (fun k => k ≠ "")).dedup
  let rows := sortStrings allKeys
  let cols := sortStrings ((cleaned.map Prod.fst).dedup)
  let cells := rows.map (fun r =>
    cols.map (fun c => if r ∈ lookupLast cleaned c then "yes" else "no"))
  let numbers := rows.map (fun r => pyInt? (firstTok r))
  ⟨rows, numbers, cols, cells⟩

/-- The hardcoded excluded column of `filter_matrix`. -/
def MISC : String := "VJE MISCELLANEOUS PARTS (VOCAL, VIBRAPHONE, ETC.)"

/-- `filter_matrix`: `df.drop(columns=[MISC])`. pandas `drop` with its
default `errors='raise'` raises `KeyError` when no column carries the
label, modelled by `none`; otherwise every column labelled `MISC` is
removed and all other data is untouched. -/
def filter_matrix (m : FileMatrix) : Option FileMatrix :=
  if MISC ∈ m.cols then
    some { rows := m.rows, numbers := m.numbers,
           cols := m.cols.filter (fun c => c ≠ MISC),
           cells := m.cells.map (fun row =>
             ((m.cols.zip row).filter (fun p => p.1 ≠ MISC)).map Prod.snd) }
  else none

/-- Characters that may appear in the name part of a canonical key:
no digit, none of the removed punctuation, no underscore, no ASCII
uppercase letter. -/
def keyChar (c : Char) : Prop :=
  isPyDigit c = false ∧ isPunctToRemove c = false ∧ c ≠ '_' ∧ c.isUpper = false

/-- The adjacency constraint of whitespace-collapsed text. -/
def noWsPair (a b : Char) : Prop := ¬(isPySpace a = true ∧ isPySpace b = true)

/-- The name part of a canonical key: everything after the leading digit
run and the single separating space. -/
def keyTail (s : String) : List Char := (s.data.dropWhile isPyDigit).drop 1

/-- Helper for C6: a canonical key is the non-empty
`f"{number} {name}"` string, hence never `""`. -/
theorem mkKey_ne_empty (n : Nat) (name : List Char) :
    (⟨natDecimal n ++ ' ' :: name⟩ : String) ≠ "" := by
  intro h
  have : natDecimal n ++ ' ' :: name = ([] : List Char) := congrArg String.data h
  exact List.append_ne_nil_of_right_ne_nil _ (by simp) this


/-! ### Character-level facts -/

theorem char_le_iff_toNat {c d : Char} : c ≤ d ↔ c.toNat ≤ d.toNat := by
  rw [Char.le_def, UInt32.le_def, BitVec.le_def]; rfl

theorem char_eq_iff_toNat {c d : Char} : c = d ↔ c.toNat = d.toNat := by
  constructor
  · intro h; rw [h]
  · intro h
    exact Char.ext (UInt32.eq_of_toBitVec_eq (BitVec.eq_of_toNat_eq h))

theorem isPyDigit_toNat {c : Char} : isPyDigit c = true ↔ 48 ≤ c.toNat ∧ c.toNat ≤ 57 := by
  simp [isPyDigit, Char.isDigit, Char.le_def, UInt32.le_def, BitVec.le_def]
  rfl

theorem isUpper_toNat {c : Char} : c.isUpper = true ↔ 65 ≤ c.toNat ∧ c.toNat ≤ 90 := by
  simp [Char.isUpper, Char.le_def, UInt32.le_def, BitVec.le_def]
  rfl

theorem isLower_toNat {c : Char} : c.isLower = true ↔ 97 ≤ c.toNat ∧ c.toNat ≤ 122 := by
  simp [Char.isLower, Char.le_def, UInt32.le_def, BitVec.le_def]
  rfl

theorem isPySpace_toNat {c : Char} : isPySpace c = true ↔
    (c.toNat = 32 ∨ c.toNat = 9 ∨ c.toNat = 10 ∨ c.toNat = 11 ∨ c.toNat = 12 ∨
     c.toNat = 13 ∨ c.toNat = 28 ∨ c.toNat = 29 ∨ c.toNat = 30 ∨ c.toNat = 31 ∨
     c.toNat = 133 ∨ c.toNat = 160 ∨ c.toNat = 5760 ∨
     (8192 ≤ c.toNat ∧ c.toNat ≤ 8202) ∨ c.toNat = 8232 ∨ c.toNat = 8233 ∨
     c.toNat = 8239 ∨ c.toNat = 8287 ∨ c.toNat = 12288) := by
  simp [isPySpace, char_eq_iff_toNat, char_le_iff_toNat]
  omega

theorem isPunct_toNat {c : Char} : isPunctToRemove c = true ↔
    (c.toNat = 39 ∨ c.toNat = 8216 ∨ c.toNat = 8217 ∨ c.toNat = 44 ∨ c.toNat = 46 ∨
     (48 ≤ c.toNat ∧ c.toNat ≤ 57)) := by
  simp [isPunctToRemove, char_eq_iff_toNat, isPyDigit_toNat]
  omega

theorem toNat_toLower_of_upper {c : Char} (h : 65 ≤ c.toNat ∧ c.toNat ≤ 90) :
    (Char.toLower c).toNat = c.toNat + 32 := by
  have hv : (c.toNat + 32).isValidChar := Or.inl (by omega)
  rw [Char.toLower, if_pos h]
  show (Char.ofNat (c.toNat + 32)).toNat = c.toNat + 32
  rw [Char.ofNat, dif_pos hv]
  rfl

theorem toLower_eq_self {c : Char} (h : ¬(65 ≤ c.toNat ∧ c.toNat ≤ 90)) :
    Char.toLower c = c := by
  rw [Char.toLower]
  exact if_neg h

theorem toLower_eq_self_of_not_upper {c : Char} (h : c.isUpper = false) :
    Char.toLower c = c := by
  apply toLower_eq_self
  intro hc
  rw [isUpper_toNat.mpr hc] at h
  cases h

theorem toLower_not_upper (c : Char) : (Char.toLower c).isUpper = false := by
  by_cases h : 65 ≤ c.toNat ∧ c.toNat ≤ 90
  · have := toNat_toLower_of_upper h
    rw [Bool.eq_false_iff]
    intro hu
    have := isUpper_toNat.mp hu
    omega
  · rw [toLower_eq_self h, Bool.eq_false_iff]
    intro hu
    exact h (isUpper_toNat.mp hu)

theorem toLower_digit (c : Char) : isPyDigit (Char.toLower c) = isPyDigit c := by
  by_cases h : 65 ≤ c.toNat ∧ c.toNat ≤ 90
  · have h2 := toNat_toLower_of_upper h
    have l : isPyDigit (Char.toLower c) = false := by
      rw [Bool.eq_false_iff]; intro hd; have := isPyDigit_toNat.mp hd; omega
    have r : isPyDigit c = false := by
      rw [Bool.eq_false_iff]; intro hd; have := isPyDigit_toNat.mp hd; omega
    rw [l, r]
  · rw [toLower_eq_self h]

theorem toLower_space (c : Char) : isPySpace (Char.toLower c) = isPySpace c := by
  by_cases h : 65 ≤ c.toNat ∧ c.toNat ≤ 90
  · have h2 := toNat_toLower_of_upper h
    have l : isPySpace (Char.toLower c) = false := by
      rw [Bool.eq_false_iff]; intro hd; have := isPySpace_toNat.mp hd; omega
    have r : isPySpace c = false := by
      rw [Bool.eq_false_iff]; intro hd; have := isPySpace_toNat.mp hd; omega
    rw [l, r]
  · rw [toLower_eq_self h]

theorem toLower_punct (c : Char) : isPunctToRemove (Char.toLower c) = isPunctToRemove c := by
  by_cases h : 65 ≤ c.toNat ∧ c.toNat ≤ 90
  · have h2 := toNat_toLower_of_upper h
    have l : isPunctToRemove (Char.toLower c) = false := by
      rw [Bool.eq_false_iff]; intro hd; have := isPunct_toNat.mp hd; omega
    have r : isPunctToRemove c = false := by
      rw [Bool.eq_false_iff]; intro hd; have := isPunct_toNat.mp hd; omega
    rw [l, r]
  · rw [toLower_eq_self h]

theorem toLower_underscore {c : Char} (h : c ≠ '_') : Char.toLower c ≠ '_' := by
  by_cases hu : 65 ≤ c.toNat ∧ c.toNat ≤ 90
  · have h2 := toNat_toLower_of_upper hu
    intro he
    rw [char_eq_iff_toNat] at he
    have : ('_' : Char).toNat = 95 := rfl
    omega
  · rw [toLower_eq_self hu]; exact h

theorem toLower_space_char : Char.toLower ' ' = ' ' := rfl

/-! ### Decimal rendering and parsing facts -/

theorem digitChar_digit {d : Nat} (h : d < 10) :
    isPyDigit (Nat.digitChar d) = true ∧ digitVal (Nat.digitChar d) = d := by
  interval_cases d <;> exact ⟨rfl, rfl⟩

theorem natVal_append_digit (xs : List Char) (c : Char) :
    natVal (xs ++ [c]) = 10 * natVal xs + digitVal c := by
  simp [natVal, List.foldl_append]

theorem natDecimalAux_spec : ∀ fuel n, n < fuel →
    (∀ c ∈ natDecimalAux fuel n, isPyDigit c = true) ∧
    natVal (natDecimalAux fuel n) = n ∧ natDecimalAux fuel n ≠ [] := by
  intro fuel
  induction fuel with
  | zero => intro n h; omega
  | succ fuel ih =>
    intro n h
    by_cases h10 : n < 10
    · rw [natDecimalAux, if_pos h10]
      refine ⟨?_, ?_, by simp⟩
      · intro c hc
        rw [List.mem_singleton] at hc
        rw [hc]
        exact (digitChar_digit h10).1
      · show natVal ([] ++ [Nat.digitChar n]) = n
        rw [natVal_append_digit]
        have := (digitChar_digit h10).2
        simp [natVal]
        omega
    · rw [natDecimalAux, if_neg h10]
      have hdiv : n / 10 < fuel := by
        have : n / 10 < n := Nat.div_lt_self (by omega) (by omega)
        omega
      obtain ⟨ih1, ih2, ih3⟩ := ih (n / 10) hdiv
      refine ⟨?_, ?_, by simp⟩
      · intro c hc
        rw [List.mem_append] at hc
        rcases hc with hc | hc
        · exact ih1 c hc
        · rw [List.mem_singleton] at hc
          rw [hc]
          exact (digitChar_digit (Nat.mod_lt n (by omega))).1
      · rw [natVal_append_digit, ih2, (digitChar_digit (Nat.mod_lt n (by omega))).2]
        omega

theorem natDecimal_digits (n : Nat) : ∀ c ∈ natDecimal n, isPyDigit c = true :=
  (natDecimalAux_spec (n + 1) n (by omega)).1

theorem natVal_natDecimal (n : Nat) : natVal (natDecimal n) = n :=
  (natDecimalAux_spec (n + 1) n (by omega)).2.1

theorem natDecimal_ne_nil (n : Nat) : natDecimal n ≠ [] :=
  (natDecimalAux_spec (n + 1) n (by omega)).2.2

theorem digit_not_space {c : Char} (h : isPyDigit c = true) : isPySpace c = false := by
  have := isPyDigit_toNat.mp h
  rw [Bool.eq_false_iff]
  intro hs
  have := isPySpace_toNat.mp hs
  omega

theorem pyDigitsAux_all_digits : ∀ (ds : List Char) (acc : Nat),
    (∀ c ∈ ds, isPyDigit c = true) →
    pyDigitsAux ds acc true = some (ds.foldl (fun a c => 10 * a + digitVal c) acc) := by
  intro ds
  induction ds with
  | nil => intro acc _; rfl
  | cons d tl ih =>
    intro acc hall
    rw [pyDigitsAux, if_pos (hall d (by simp))]
    rw [ih _ (fun c hc => hall c (by simp [hc]))]
    simp [List.foldl_cons]

theorem pyInt_digits (ds : List Char) (hne : ds ≠ [])
    (hall : ∀ c ∈ ds, isPyDigit c = true)
    (hbound : natVal ds ≤ 9223372036854775807) :
    pyInt? ⟨ds⟩ = some (natVal ds) := by
  obtain ⟨d, tl, rfl⟩ := List.exists_cons_of_ne_nil hne
  have hd : isPyDigit d = true := hall d (by simp)
  have hd48 := isPyDigit_toNat.mp hd
  have hnospace : ∀ c ∈ d :: tl, isPySpace c = false := fun c hc => digit_not_space (hall c hc)
  have hdrop : (d :: tl).dropWhile isPySpace = d :: tl := by
    rw [List.dropWhile_cons_of_neg]
    rw [hnospace d (by simp)]
    simp
  have htrail : dropTrailing isPySpace (d :: tl) = d :: tl := by
    unfold dropTrailing
    rw [List.rdropWhile_eq_self_iff]
    intro hl hp
    exact absurd hp (by rw [hnospace _ (List.getLast_mem hl)]; simp)
  have hplus : d ≠ '+' := by
    intro he; rw [char_eq_iff_toNat] at he
    have : ('+' : Char).toNat = 43 := rfl
    omega
  have hminus : d ≠ '-' := by
    intro he; rw [char_eq_iff_toNat] at he
    have : ('-' : Char).toNat = 45 := rfl
    omega
  show pyInt? ⟨d :: tl⟩ = some (natVal (d :: tl))
  unfold pyInt?
  simp only [String.data]
  rw [hdrop, htrail]
  simp only [if_neg hplus, if_neg hminus]
  rw [pyDigitsAux, if_pos hd, pyDigitsAux_all_digits _ _ (fun c hc => hall c (by simp [hc]))]
  show int64Check ((natVal (d :: tl) : Int)) = some ((natVal (d :: tl) : Int))
  unfold int64Check
  rw [if_pos]
  constructor <;> omega

/-! ### Structural invariants of the normalized name -/

theorem keyChar_space : keyChar ' ' := by
  refine ⟨rfl, rfl, ?_, rfl⟩
  intro h
  cases h

theorem stripSuffixKeyword_subset {l : List Char} {c : Char}
    (h : c ∈ stripSuffixKeyword l) : c ∈ l := by
  unfold stripSuffixKeyword at h
  cases hf : findSuffixIdx l with
  | none => rw [hf] at h; exact h
  | some i =>
    rw [hf] at h
    rcases List.mem_append.mp h with hm | hm
    · exact (List.take_sublist i l).subset hm
    · by_cases hl : l.getLast? = some '\n'
      · rw [if_pos hl, List.mem_singleton] at hm
        subst hm
        exact List.mem_of_getLast?_eq_some hl
      · rw [if_neg hl] at hm
        cases hm

theorem stripParenDash_subset {l : List Char} {c : Char}
    (h : c ∈ stripParenDash l) : c ∈ l := by
  unfold stripParenDash at h
  cases hf : findParenIdx l with
  | none => rw [hf] at h; exact h
  | some i =>
    rw [hf] at h
    rcases List.mem_append.mp h with hm | hm
    · exact (List.take_sublist i l).subset hm
    · by_cases hl : l.getLast? = some '\n'
      · rw [if_pos hl, List.mem_singleton] at hm
        subst hm
        exact List.mem_of_getLast?_eq_some hl
      · rw [if_neg hl] at hm
        cases hm

theorem camelSplit_mem : ∀ {l : List Char} {c : Char}, c ∈ camelSplit l → c ∈ l ∨ c = ' ' := by
  intro l
  induction l using camelSplit.induct with
  | case1 => intro c h; cases h
  | case2 c0 => intro c h; exact Or.inl h
  | case3 c1 c2 rest h ih =>
    intro c hm
    rw [camelSplit, if_pos h] at hm
    simp only [List.mem_cons] at hm
    rcases hm with h1 | h1 | h1 | h1
    · exact Or.inl (by simp [h1])
    · exact Or.inr h1
    · exact Or.inl (by simp [h1])
    · rcases ih h1 with h2 | h2
      · exact Or.inl (by simp [h2])
      · exact Or.inr h2
  | case4 c1 c2 rest h ih =>
    intro c hm
    rw [camelSplit, if_neg h] at hm
    simp only [List.mem_cons] at hm
    rcases hm with h1 | h1
    · exact Or.inl (by simp [h1])
    · rcases ih h1 with h2 | h2
      · exact Or.inl (by simp [h2])
      · exact Or.inr h2

theorem collapseWs_mem : ∀ {l : List Char} {c : Char},
    c ∈ collapseWs l → c = ' ' ∨ (c ∈ l ∧ isPySpace c = false) := by
  intro l
  induction l using collapseWs.induct with
  | case1 => intro c h; cases h
  | case2 c0 hs =>
    intro c h
    rw [collapseWs, if_pos hs, List.mem_singleton] at h
    exact Or.inl h
  | case3 c0 hs =>
    intro c h
    rw [collapseWs, if_neg hs, List.mem_singleton] at h
    subst h
    exact Or.inr ⟨by simp, by simpa using hs⟩
  | case4 c1 c2 rest h1 h2 ih =>
    intro c hm
    rw [collapseWs, if_pos h1, if_pos h2] at hm
    rcases ih hm with h3 | h3
    · exact Or.inl h3
    · exact Or.inr ⟨by simp [h3.1], h3.2⟩
  | case5 c1 c2 rest h1 h2 ih =>
    intro c hm
    rw [collapseWs, if_pos h1, if_neg h2] at hm
    rcases List.mem_cons.mp hm with h3 | h3
    · exact Or.inl h3
    · rcases ih h3 with h4 | h4
      · exact Or.inl h4
      · exact Or.inr ⟨by simp [h4.1], h4.2⟩
  | case6 c1 c2 rest h1 ih =>
    intro c hm
    rw [collapseWs, if_neg h1] at hm
    rcases List.mem_cons.mp hm with h3 | h3
    · subst h3
      exact Or.inr ⟨by simp, by simpa using h1⟩
    · rcases ih h3 with h4 | h4
      · exact Or.inl h4
      · exact Or.inr ⟨by simp [h4.1], h4.2⟩

theorem dropTrailing_subset {p : Char → Bool} {l : List Char} {c : Char}
    (h : c ∈ dropTrailing p l) : c ∈ l := by
  unfold dropTrailing List.rdropWhile at h
  rw [List.mem_reverse] at h
  have h2 := (List.dropWhile_sublist p).subset h
  rw [List.mem_reverse] at h2
  exact h2

theorem pyStrip_subset {l : List Char} {c : Char} (h : c ∈ pyStrip l) : c ∈ l :=
  (List.dropWhile_sublist isPySpace).subset (dropTrailing_subset h)

theorem rstripDash_subset {l : List Char} {c : Char} (h : c ∈ rstripDash l) : c ∈ l :=
  dropTrailing_subset h

theorem underscoreToSpace_no_underscore {l : List Char} {c : Char}
    (h : c ∈ underscoreToSpace l) : c ≠ '_' := by
  obtain ⟨d, _, rfl⟩ := List.mem_map.mp h
  by_cases hd : d = '_'
  · rw [if_pos hd]
    intro he
    have : (' ' : Char).toNat = 32 := rfl
    have : ('_' : Char).toNat = 95 := rfl
    rw [char_eq_iff_toNat] at he
    omega
  · rw [if_neg hd]
    exact hd

theorem head?_dropWhile {p : Char → Bool} : ∀ {l : List Char} {c : Char},
    (l.dropWhile p).head? = some c → p c = false := by
  intro l
  induction l with
  | nil => intro c h; cases h
  | cons a tl ih =>
    intro c h
    by_cases hp : p a = true
    · rw [List.dropWhile_cons_of_pos hp] at h
      exact ih h
    · rw [List.dropWhile_cons_of_neg (by simpa using hp)] at h
      cases h
      simpa using hp

theorem getLast?_dropTrailing {p : Char → Bool} {l : List Char} {c : Char}
    (h : (dropTrailing p l).getLast? = some c) : p c = false := by
  unfold dropTrailing at h
  rw [List.rdropWhile, List.getLast?_reverse] at h
  exact head?_dropWhile h

theorem head?_dropTrailing {p : Char → Bool} {l : List Char}
    (h : dropTrailing p l ≠ []) : (dropTrailing p l).head? = l.head? := by
  have hsuf : l.reverse.dropWhile p <:+ l.reverse := List.dropWhile_suffix p
  obtain ⟨t, ht⟩ := hsuf
  have ht2 : dropTrailing p l ++ t.reverse = l := by
    unfold dropTrailing List.rdropWhile
    rw [← List.reverse_append, ht, List.reverse_reverse]
  conv_rhs => rw [← ht2]
  rw [List.head?_append]
  cases hh : (dropTrailing p l).head? with
  | none => exact absurd (List.head?_eq_none_iff.mp hh) h
  | some a => rfl

theorem collapseWs_head_of_not_space {d : Char} {rest : List Char}
    (h : isPySpace d = false) : (collapseWs (d :: rest)).head? = some d := by
  cases rest with
  | nil => rw [collapseWs, if_neg (by simp [h])]; rfl
  | cons e r => rw [collapseWs, if_neg (by simp [h])]; rfl

theorem collapseWs_chain : ∀ (l : List Char), List.Chain' noWsPair (collapseWs l) := by
  intro l
  induction l using collapseWs.induct with
  | case1 => simp [collapseWs]
  | case2 c0 hs => rw [collapseWs, if_pos hs]; simp
  | case3 c0 hs => rw [collapseWs, if_neg hs]; simp
  | case4 c1 c2 rest h1 h2 ih => rw [collapseWs, if_pos h1, if_pos h2]; exact ih
  | case5 c1 c2 rest h1 h2 ih =>
    rw [collapseWs, if_pos h1, if_neg h2]
    rw [List.chain'_cons']
    refine ⟨?_, ih⟩
    intro y hy
    rw [collapseWs_head_of_not_space (by simpa using h2)] at hy
    cases hy
    intro hpair
    rw [hpair.2] at h2
    exact h2 rfl
  | case6 c1 c2 rest h1 ih =>
    rw [collapseWs, if_neg h1]
    rw [List.chain'_cons']
    refine ⟨?_, ih⟩
    intro y _
    intro hpair
    rw [hpair.1] at h1
    exact h1 rfl

theorem pyStrip_head {w : List Char} {c : Char}
    (h : (pyStrip w).head? = some c) : isPySpace c = false := by
  unfold pyStrip at h
  have hne : dropTrailing isPySpace (w.dropWhile isPySpace) ≠ [] := by
    intro hnil
    rw [hnil] at h
    cases h
  rw [head?_dropTrailing hne] at h
  exact head?_dropWhile h

theorem pyStrip_last {w : List Char} {c : Char}
    (h : (pyStrip w).getLast? = some c) : isPySpace c = false := by
  unfold pyStrip at h
  exact getLast?_dropTrailing h

theorem charProps_space : isPyDigit ' ' = false ∧ isPunctToRemove ' ' = false ∧ (' ' : Char) ≠ '_' := by
  refine ⟨rfl, rfl, ?_⟩
  intro h
  cases h

theorem stripPunct_props {l : List Char} : ∀ c ∈ stripPunct l,
    isPyDigit c = false ∧ isPunctToRemove c = false := by
  intro c hc
  have hfil := List.mem_filter.mp hc
  have hpunct : isPunctToRemove c = false := by simpa using hfil.2
  refine ⟨?_, hpunct⟩
  rw [Bool.eq_false_iff]
  intro hd
  have : isPunctToRemove c = true := by simp [isPunctToRemove, hd]
  rw [this] at hpunct
  cases hpunct

theorem preCollapse_props (cs : List Char) :
    ∀ c ∈ camelSplit (stripPunct (stripParenDash (stripSuffixKeyword
      (underscoreToSpace (stripOClock (stripLeadingNumber cs)))))),
    isPyDigit c = false ∧ isPunctToRemove c = false ∧ c ≠ '_' := by
  intro c hc
  rcases camelSplit_mem hc with h | h
  · obtain ⟨hdig, hpunct⟩ := stripPunct_props c h
    refine ⟨hdig, hpunct, ?_⟩
    have hfil := List.mem_filter.mp h
    exact underscoreToSpace_no_underscore
      (stripSuffixKeyword_subset (stripParenDash_subset hfil.1))
  · rw [h]; exact charProps_space

theorem chain'_dropTrailing {R : Char → Char → Prop} (p : Char → Bool)
    {l : List Char} (h : List.Chain' R l) : List.Chain' R (dropTrailing p l) := by
  unfold dropTrailing List.rdropWhile
  rw [List.chain'_reverse]
  apply List.Chain'.suffix _ (List.dropWhile_suffix p)
  rw [← List.reverse_reverse l] at h
  rw [List.chain'_reverse] at h
  exact h

theorem postCollapse_invariant (m : List Char)
    (hm : ∀ c ∈ m, isPyDigit c = false ∧ isPunctToRemove c = false ∧ c ≠ '_') :
    (∀ c ∈ lowerAll (pyStrip (rstripDash (pyStrip (collapseWs m)))), keyChar c) ∧
    (∀ c ∈ lowerAll (pyStrip (rstripDash (pyStrip (collapseWs m)))),
       isPySpace c = true → c = ' ') ∧
    List.Chain' noWsPair (lowerAll (pyStrip (rstripDash (pyStrip (collapseWs m))))) ∧
    (∀ c, (lowerAll (pyStrip (rstripDash (pyStrip (collapseWs m))))).head? = some c →
       isPySpace c = false) ∧
    (∀ c, (lowerAll (pyStrip (rstripDash (pyStrip (collapseWs m))))).getLast? = some c →
       isPySpace c = false) := by
  have C : ∀ c ∈ collapseWs m, isPyDigit c = false ∧ isPunctToRemove c = false ∧ c ≠ '_' := by
    intro c hc
    rcases collapseWs_mem hc with h | h
    · rw [h]; exact charProps_space
    · exact hm c h.1
  have wsOnly10 : ∀ c ∈ collapseWs m, isPySpace c = true → c = ' ' := by
    intro c hc hs
    rcases collapseWs_mem hc with h | h
    · exact h
    · rw [h.2] at hs; cases hs
  have sub11 : ∀ c ∈ pyStrip (rstripDash (pyStrip (collapseWs m))), c ∈ collapseWs m :=
    fun c hc => pyStrip_subset (rstripDash_subset (pyStrip_subset hc))
  have C11 : ∀ c ∈ pyStrip (rstripDash (pyStrip (collapseWs m))),
      isPyDigit c = false ∧ isPunctToRemove c = false ∧ c ≠ '_' :=
    fun c hc => C c (sub11 c hc)
  have wsOnly11 : ∀ c ∈ pyStrip (rstripDash (pyStrip (collapseWs m))),
      isPySpace c = true → c = ' ' :=
    fun c hc => wsOnly10 c (sub11 c hc)
  have chain11 : List.Chain' noWsPair (pyStrip (rstripDash (pyStrip (collapseWs m)))) := by
    have h1 : List.Chain' noWsPair (pyStrip (collapseWs m)) :=
      chain'_dropTrailing isPySpace
        ((collapseWs_chain m).suffix (List.dropWhile_suffix isPySpace))
    have h2 : List.Chain' noWsPair (rstripDash (pyStrip (collapseWs m))) :=
      chain'_dropTrailing _ h1
    exact chain'_dropTrailing isPySpace (h2.suffix (List.dropWhile_suffix isPySpace))
  refine ⟨?_, ?_, ?_, ?_, ?_⟩
  · intro c hc
    obtain ⟨d, hd, rfl⟩ := List.mem_map.mp hc
    obtain ⟨hdig, hpunct, hus⟩ := C11 d hd
    refine ⟨?_, ?_, toLower_underscore hus, toLower_not_upper d⟩
    · rw [toLower_digit, hdig]
    · rw [toLower_punct, hpunct]
  · intro c hc hs
    obtain ⟨d, hd, rfl⟩ := List.mem_map.mp hc
    rw [toLower_space] at hs
    rw [wsOnly11 d hd hs]
    rfl
  · apply (List.chain'_map Char.toLower).mpr
    apply chain11.imp
    intro a b hab
    unfold noWsPair
    rw [toLower_space, toLower_space]
    exact hab
  · intro c h
    unfold lowerAll at h
    rw [List.head?_map] at h
    cases hh : (pyStrip (rstripDash (pyStrip (collapseWs m)))).head? with
    | none => rw [hh] at h; cases h
    | some d =>
      rw [hh] at h
      cases h
      rw [toLower_space]
      exact pyStrip_head hh
  · intro c h
    unfold lowerAll at h
    rw [List.getLast?_map] at h
    cases hh : (pyStrip (rstripDash (pyStrip (collapseWs m)))).getLast? with
    | none => rw [hh] at h; cases h
    | some d =>
      rw [hh] at h
      cases h
      rw [toLower_space]
      exact pyStrip_last hh

theorem cleanName_invariant (cs : List Char) :
    (∀ c ∈ cleanName cs, keyChar c) ∧
    (∀ c ∈ cleanName cs, isPySpace c = true → c = ' ') ∧
    List.Chain' noWsPair (cleanName cs) ∧
    (∀ c, (cleanName cs).head? = some c → isPySpace c = false) ∧
    (∀ c, (cleanName cs).getLast? = some c → isPySpace c = false) :=
  postCollapse_invariant _ (preCollapse_props cs)

/-! ### Each normalization step fixes an already-canonical name -/

theorem dropWhile_all_append {p : Char → Bool} : ∀ (D t : List Char),
    (∀ c ∈ D, p c = true) → (D ++ t).dropWhile p = t.dropWhile p := by
  intro D
  induction D with
  | nil => intro t _; rfl
  | cons d D' ih =>
    intro t h
    rw [List.cons_append, List.dropWhile_cons_of_pos (h d (by simp))]
    exact ih t (fun c hc => h c (by simp [hc]))

theorem takeWhile_all_append {p : Char → Bool} : ∀ (D t : List Char),
    (∀ c ∈ D, p c = true) → (D ++ t).takeWhile p = D ++ t.takeWhile p := by
  intro D
  induction D with
  | nil => intro t _; rfl
  | cons d D' ih =>
    intro t h
    rw [List.cons_append, List.takeWhile_cons_of_pos (h d (by simp)), ih t
      (fun c hc => h c (by simp [hc])), List.cons_append]

theorem stripExt_append_pdf (l : List Char) :
    stripExt (l ++ ('.' :: 'p' :: 'd' :: 'f' :: [])) = l := by
  unfold stripExt
  rw [List.reverse_append]
  show (if (('f' :: 'd' :: 'p' :: '.' :: []) ++ l.reverse).dropWhile  _ |>.isEmpty then _ else _) = l
  rw [List.cons_append, List.cons_append, List.cons_append, List.cons_append]
  rw [List.dropWhile_cons_of_pos (by decide), List.dropWhile_cons_of_pos (by decide),
    List.dropWhile_cons_of_pos (by decide), List.dropWhile_cons_of_neg (by decide)]
  simp

theorem dropWhile_noop {p : Char → Bool} {l : List Char}
    (h : ∀ c, l.head? = some c → p c = false) : l.dropWhile p = l := by
  cases l with
  | nil => rfl
  | cons a tl =>
    rw [List.dropWhile_cons_of_neg]
    rw [h a rfl]
    simp

theorem dropTrailing_noop {p : Char → Bool} {l : List Char}
    (h : ∀ c, l.getLast? = some c → p c = false) : dropTrailing p l = l := by
  unfold dropTrailing
  rw [List.rdropWhile_eq_self_iff]
  intro hl hp
  have := h (l.getLast hl) (List.getLast?_eq_getLast l hl)
  rw [this] at hp
  cases hp

theorem stripLeadingNumber_key {D name : List Char} (hD : D ≠ [])
    (hdig : ∀ c ∈ D, isPyDigit c = true)
    (hname : ∀ c, name.head? = some c → isSepChar c = false) :
    stripLeadingNumber (D ++ ' ' :: name) = name := by
  obtain ⟨d, D', rfl⟩ := List.exists_cons_of_ne_nil hD
  rw [List.cons_append, stripLeadingNumber]
  rw [if_pos (hdig d (by simp))]
  rw [← List.cons_append, dropWhile_all_append _ _ hdig]
  rw [List.dropWhile_cons_of_neg (by decide)]
  rw [List.dropWhile_cons_of_pos (by decide)]
  exact dropWhile_noop hname

theorem stripOClock_noop {l : List Char}
    (h : ∀ c, l.head? = some c → isPyDigit c = false) : stripOClock l = l := by
  unfold stripOClock
  rw [if_pos]
  cases l with
  | nil => rfl
  | cons a tl =>
    rw [List.takeWhile_cons_of_neg]
    · rfl
    · rw [h a rfl]
      simp

theorem underscoreToSpace_noop {l : List Char} (h : ∀ c ∈ l, c ≠ '_') :
    underscoreToSpace l = l := by
  unfold underscoreToSpace
  induction l with
  | nil => rfl
  | cons a tl ih =>
    rw [List.map_cons, if_neg (h a (by simp)), ih (fun c hc => h c (by simp [hc]))]

theorem stripSuffixKeyword_noop {l : List Char} (h : findSuffixIdx l = none) :
    stripSuffixKeyword l = l := by
  unfold stripSuffixKeyword
  rw [h]

theorem findParenIdx_none {l : List Char} (h : ∀ c ∈ l, c ≠ '(' ∧ c ≠ '-') :
    findParenIdx l = none := by
  induction l with
  | nil => rfl
  | cons a tl ih =>
    rw [findParenIdx]
    have hhit : parenHit (a :: tl) = false := by
      unfold parenHit
      cases hdw : (a :: tl).dropWhile isPySpace with
      | nil => rfl
      | cons d r =>
        have hd : d ∈ a :: tl := (List.dropWhile_sublist isPySpace).subset (by rw [hdw]; simp)
        simp [(h d hd).1, (h d hd).2]
    rw [hhit]
    rw [ih (fun c hc => h c (by simp [hc]))]
    rfl

theorem stripParenDash_noop {l : List Char} (h : ∀ c ∈ l, c ≠ '(' ∧ c ≠ '-') :
    stripParenDash l = l := by
  unfold stripParenDash
  rw [findParenIdx_none h]

theorem stripPunct_noop {l : List Char} (h : ∀ c ∈ l, isPunctToRemove c = false) :
    stripPunct l = l := by
  unfold stripPunct
  rw [List.filter_eq_self]
  intro a ha
  rw [h a ha]
  rfl

theorem camelSplit_noop : ∀ {l : List Char}, (∀ c ∈ l, c.isUpper = false) →
    camelSplit l = l := by
  intro l
  induction l using camelSplit.induct with
  | case1 => intro _; rfl
  | case2 c0 => intro _; rfl
  | case3 c1 c2 rest hg ih =>
    intro h
    rw [h c2 (by simp)] at hg
    simp at hg
  | case4 c1 c2 rest hg ih =>
    intro h
    rw [camelSplit, if_neg hg, ih (fun c hc => h c (by simp [hc]))]

theorem collapseWs_noop : ∀ {l : List Char},
    (∀ c ∈ l, isPySpace c = true → c = ' ') → List.Chain' noWsPair l →
    collapseWs l = l := by
  intro l
  induction l using collapseWs.induct with
  | case1 => intro _ _; rfl
  | case2 c0 hs =>
    intro h1 _
    rw [collapseWs, if_pos hs, h1 c0 (by simp) hs]
  | case3 c0 hs =>
    intro _ _
    rw [collapseWs, if_neg hs]
  | case4 c1 c2 rest h1 h2 ih =>
    intro _ hch
    exact absurd ⟨h1, h2⟩ (List.chain'_cons.mp hch).1
  | case5 c1 c2 rest h1 h2 ih =>
    intro hws hch
    rw [collapseWs, if_pos h1, if_neg h2,
      ih (fun c hc => hws c (by simp [hc])) (List.chain'_cons.mp hch).2,
      hws c1 (by simp) h1]
  | case6 c1 c2 rest h1 ih =>
    intro hws hch
    rw [collapseWs, if_neg h1,
      ih (fun c hc => hws c (by simp [hc])) (List.chain'_cons.mp hch).2]

theorem pyStrip_noop {l : List Char}
    (hh : ∀ c, l.head? = some c → isPySpace c = false)
    (hl : ∀ c, l.getLast? = some c → isPySpace c = false) : pyStrip l = l := by
  unfold pyStrip
  rw [dropWhile_noop hh]
  exact dropTrailing_noop hl

theorem rstripDash_noop {l : List Char}
    (h : ∀ c, l.getLast? = some c → c ≠ '-') : rstripDash l = l := by
  unfold rstripDash
  apply dropTrailing_noop
  intro c hc
  simp [h c hc]

theorem lowerAll_noop {l : List Char} (h : ∀ c ∈ l, c.isUpper = false) :
    lowerAll l = l := by
  unfold lowerAll
  induction l with
  | nil => rfl
  | cons a tl ih =>
    rw [List.map_cons, toLower_eq_self_of_not_upper (h a (by simp)),
      ih (fun c hc => h c (by simp [hc]))]

theorem keyTail_key {D name : List Char} (hdig : ∀ c ∈ D, isPyDigit c = true) :
    keyTail ⟨D ++ ' ' :: name⟩ = name := by
  unfold keyTail
  show ((D ++ ' ' :: name).dropWhile isPyDigit).drop 1 = name
  rw [dropWhile_all_append _ _ hdig, List.dropWhile_cons_of_neg (by decide)]
  rfl

/-- A non-empty canonical key is the rendered number, a space, and the
cleaned name. -/
theorem clean_filename_structure (y : String) (h : clean_filename y ≠ "") :
    y.data.takeWhile isPyDigit ≠ [] ∧ cleanName (stripExt y.data) ≠ [] ∧
    clean_filename y =
      ⟨natDecimal (natVal (y.data.takeWhile isPyDigit)) ++
        ' ' :: cleanName (stripExt y.data)⟩ := by
  unfold clean_filename at h ⊢
  by_cases h1 : (y.data.takeWhile isPyDigit).isEmpty
  · rw [if_pos h1] at h
    exact absurd rfl h
  · rw [if_neg h1] at h ⊢
    by_cases h2 : (cleanName (stripExt y.data)).isEmpty
    · rw [if_pos h2] at h
      exact absurd rfl h
    · rw [if_neg h2]
      exact ⟨by simpa using h1, by simpa using h2, rfl⟩

theorem clean_filename_eval (s : String)
    (h1 : s.data.takeWhile isPyDigit ≠ [])
    (h2 : cleanName (stripExt s.data) ≠ []) :
    clean_filename s =
      ⟨natDecimal (natVal (s.data.takeWhile isPyDigit)) ++
        ' ' :: cleanName (stripExt s.data)⟩ := by
  unfold clean_filename
  rw [if_neg (by simpa using h1), if_neg (by simpa using h2)]

set_option maxHeartbeats 1000000

/-- C2 (amended): re-normalizing a non-empty canonical key re-suffixed with
`.pdf` reproduces the key, provided its name part contains no parenthesis
or hyphen and no whitespace-preceded instrument/version keyword (the
counterexample `C2_renormalize_counterexample` shows the unrestricted
claim fails: camel-case splitting can create a fresh ` alto` suffix that
the second pass strips). -/
theorem C2_renormalize_fixpoint (y : String) (hne : clean_filename y ≠ "")
    (hpar : ∀ c ∈ keyTail (clean_filename y), c ≠ '(' ∧ c ≠ '-')
    (hsuf : findSuffixIdx (keyTail (clean_filename y)) = none) :
    clean_filename (clean_filename y ++ ".pdf") = clean_filename y := by
  obtain ⟨hds, hname, hx⟩ := clean_filename_structure y hne
  have hDdig : ∀ c ∈ natDecimal (natVal (y.data.takeWhile isPyDigit)), isPyDigit c = true :=
    natDecimal_digits _
  have hDne : natDecimal (natVal (y.data.takeWhile isPyDigit)) ≠ [] := natDecimal_ne_nil _
  have hDrt : natDecimal (natVal (natDecimal (natVal (y.data.takeWhile isPyDigit)))) =
      natDecimal (natVal (y.data.takeWhile isPyDigit)) := by
    rw [natVal_natDecimal]
  have hinv := cleanName_invariant (stripExt y.data)
  have hkt : keyTail (clean_filename y) = cleanName (stripExt y.data) := by
    rw [hx]
    exact keyTail_key hDdig
  rw [hkt] at hpar hsuf
  generalize hgD : natDecimal (natVal (y.data.takeWhile isPyDigit)) = D at hDdig hDne hDrt hx
  generalize hgN : cleanName (stripExt y.data) = nm at hname hinv hpar hsuf hx
  obtain ⟨inv1, inv2, inv3, inv4, inv5⟩ := hinv
  have hdata : (clean_filename y ++ ".pdf").data =
      (D ++ ' ' :: nm) ++ ('.' :: 'p' :: 'd' :: 'f' :: []) := by
    rw [hx, String.data_append]
  have e1 : stripLeadingNumber (D ++ ' ' :: nm) = nm := by
    apply stripLeadingNumber_key hDne hDdig
    intro c hc
    have hmem : c ∈ nm := List.mem_of_mem_head? hc
    have hus := (inv1 c hmem).2.2.1
    have hsp := inv4 c hc
    have hdash := (hpar c hmem).2
    simp [isSepChar, hsp, hus, hdash]
  have e2 : stripOClock nm = nm := by
    apply stripOClock_noop
    intro c hc
    exact (inv1 c (List.mem_of_mem_head? hc)).1
  have e3 : underscoreToSpace nm = nm :=
    underscoreToSpace_noop (fun c hc => (inv1 c hc).2.2.1)
  have e4 : stripSuffixKeyword nm = nm := stripSuffixKeyword_noop hsuf
  have e5 : stripParenDash nm = nm := stripParenDash_noop hpar
  have e6 : stripPunct nm = nm := stripPunct_noop (fun c hc => (inv1 c hc).2.1)
  have e7 : camelSplit nm = nm := camelSplit_noop (fun c hc => (inv1 c hc).2.2.2)
  have e8 : collapseWs nm = nm := collapseWs_noop inv2 inv3
  have e9 : pyStrip nm = nm := pyStrip_noop inv4 inv5
  have e10 : rstripDash nm = nm := by
    apply rstripDash_noop
    intro c hc
    exact (hpar c (List.mem_of_getLast?_eq_some hc)).2
  have e11 : lowerAll nm = nm := lowerAll_noop (fun c hc => (inv1 c hc).2.2.2)
  have ecn : cleanName (D ++ ' ' :: nm) = nm := by
    unfold cleanName
    rw [e1, e2, e3, e4, e5, e6, e7, e8, e9, e10, e9, e11]
  have ht : (clean_filename y ++ ".pdf").data.takeWhile isPyDigit = D := by
    rw [hdata, List.append_assoc, List.cons_append, takeWhile_all_append _ _ hDdig,
      List.takeWhile_cons_of_neg (by decide), List.append_nil]
  have hse : stripExt (clean_filename y ++ ".pdf").data = D ++ ' ' :: nm := by
    rw [hdata]
    exact stripExt_append_pdf _
  have hcn : cleanName (stripExt (clean_filename y ++ ".pdf").data) = nm := by
    rw [hse]
    exact ecn
  have hcnne : cleanName (stripExt (clean_filename y ++ ".pdf").data) ≠ [] := by
    rw [hcn]
    exact hname
  rw [clean_filename_eval _ (by rw [ht]; exact hDne) hcnne, ht, hcn, hDrt, hx]

set_option maxHeartbeats 4000000

/-- C1 (counterexample): the spec's expected output `"7 shadow"` is wrong:
by the time the `O'Clock` rule runs, the leading digits it requires have
already been removed by the number-prefix rule, so the phrase is not
stripped. -/
theorem C1_oclock_counterexample :
    clean_filename "7 O'Clock Shadow.wav" ≠ "7 shadow" := by decide

/-- C1 (amended): `normalize("7 O'Clock Shadow.wav")` returns
`"7 oclock shadow"`: the special-prefix rule does not fire (its leading
digit run was already stripped), and the apostrophe removal plus
lowercasing turn `O'Clock` into `oclock`. -/
theorem C1_oclock_amended :
    clean_filename "7 O'Clock Shadow.wav" = "7 oclock shadow" := by decide

/-- C2 (counterexample): a non-empty canonical key on which
re-normalization with a `.pdf` suffix is not a fixed point: camel-case
splitting creates `"1 x alto"`, whose ` alto` is stripped by the second
pass. -/
theorem C2_renormalize_counterexample :
    clean_filename "1 xAlto.pdf" ≠ "" ∧
    clean_filename (clean_filename "1 xAlto.pdf" ++ ".pdf") ≠
      clean_filename "1 xAlto.pdf" := by
  constructor
  · decide
  · decide

/-- C2 (witness): the fixed-point theorem applied at a concrete key. -/
theorem C2_renormalize_fixpoint_witness :
    clean_filename (clean_filename "12_Song_Name_Alto.pdf" ++ ".pdf") =
      clean_filename "12_Song_Name_Alto.pdf" :=
  C2_renormalize_fixpoint "12_Song_Name_Alto.pdf" (by decide) (by decide) (by decide)

/-- C7: `normalize("12_Song_Name_Alto.pdf") == "12 song name"`: extension
and numeric prefix are stripped, underscores become spaces, and the
`Alto` suffix (before any parenthetical/dash truncation) is removed. -/
theorem C7_underscore_alto :
    clean_filename "12_Song_Name_Alto.pdf" = "12 song name" := by decide

/-- C6: `normalize` is total by construction and returns `""` exactly when
the filename has no leading decimal digit or the cleaning pipeline empties
the name; `normalize("No Number Here.mp3") == ""`; and a filename without
a leading digit is always discarded. -/
theorem C6_discard_signal :
    (∀ s : String, clean_filename s = "" ↔
      (s.data.takeWhile isPyDigit = [] ∨ cleanName (stripExt s.data) = [])) ∧
    clean_filename "No Number Here.mp3" = "" ∧
    (∀ s : String, s.data.takeWhile isPyDigit = [] → clean_filename s = "") := by
  have key : ∀ s : String, clean_filename s = "" ↔
      (s.data.takeWhile isPyDigit = [] ∨ cleanName (stripExt s.data) = []) := by
    intro s
    unfold clean_filename
    by_cases h1 : (s.data.takeWhile isPyDigit).isEmpty
    · rw [if_pos h1]
      simp only [List.isEmpty_iff] at h1
      simp [h1]
    · rw [if_neg h1]
      simp only [List.isEmpty_iff] at h1
      by_cases h2 : (cleanName (stripExt s.data)).isEmpty
      · rw [if_pos h2]
        simp only [List.isEmpty_iff] at h2
        simp [h2]
      · rw [if_neg h2]
        simp only [List.isEmpty_iff] at h2
        constructor
        · intro h
          exact absurd h (mkKey_ne_empty _ _)
        · rintro (h | h) <;> [exact absurd h h1; exact absurd h h2]
  refine ⟨key, by decide, ?_⟩
  intro s hs
  exact (key s).mpr (Or.inl hs)

/-- Every non-empty canonical key has the shape
`digits ++ ' ' :: name` with `name` non-empty, not starting with a digit
or a space, and the digit run carrying the value parsed from the
filename's leading digits. -/
theorem clean_filename_key_shape (y : String) (h : clean_filename y ≠ "") :
    ∃ ds nm, (clean_filename y).data = ds ++ ' ' :: nm ∧ ds ≠ [] ∧
      (∀ c ∈ ds, isPyDigit c = true) ∧
      natVal ds = natVal (y.data.takeWhile isPyDigit) ∧ nm ≠ [] ∧
      (∀ c, nm.head? = some c → isPyDigit c = false ∧ isPySpace c = false) := by
  obtain ⟨hds, hname, hx⟩ := clean_filename_structure y h
  have hinv := cleanName_invariant (stripExt y.data)
  refine ⟨natDecimal (natVal (y.data.takeWhile isPyDigit)),
    cleanName (stripExt y.data), ?_, natDecimal_ne_nil _, natDecimal_digits _,
    natVal_natDecimal _, hname, ?_⟩
  · rw [hx]
  · intro c hc
    exact ⟨(hinv.1 c (List.mem_of_mem_head? hc)).1, hinv.2.2.2.1 c hc⟩

theorem mem_rows_iff (fd : List (String × DriveEntry)) (r : String) :
    r ∈ (create_file_matrix fd).rows ↔
      (r ≠ "" ∧ ∃ p ∈ cleanedDict fd, r ∈ p.2) := by
  show r ∈ sortStrings _ ↔ _
  unfold sortStrings
  rw [List.Perm.mem_iff (List.perm_insertionSort _ _)]
  rw [List.mem_dedup, List.mem_filter]
  simp only [List.mem_flatten, List.mem_map, decide_eq_true_eq]
  constructor
  · rintro ⟨⟨l, ⟨p, hp, rfl⟩, hrl⟩, hne⟩
    exact ⟨hne, p, hp, hrl⟩
  · rintro ⟨hne, p, hp, hrp⟩
    exact ⟨⟨p.2, ⟨p, hp, rfl⟩, hrp⟩, hne⟩

theorem create_file_matrix_numbers (fd : List (String × DriveEntry)) :
    (create_file_matrix fd).numbers =
      (create_file_matrix fd).rows.map (fun r => pyInt? (firstTok r)) := rfl

theorem digit_ne_blank {c : Char} (h : isPyDigit c = true) :
    (fun c => decide (c ≠ ' ')) c = true := by
  have := isPyDigit_toNat.mp h
  simp only [decide_eq_true_eq]
  intro he
  rw [char_eq_iff_toNat] at he
  have : (' ' : Char).toNat = 32 := rfl
  omega

theorem map_getD_of_lt {α β : Type} (g : α → β) (l : List α) (i : Nat)
    (hi : i < l.length) (d : β) (d' : α) :
    (l.map g).getD i d = g (l.getD i d') := by
  rw [List.getD_eq_getElem?_getD, List.getD_eq_getElem?_getD, List.getElem?_map,
    List.getElem?_eq_getElem hi]
  rfl

theorem getD_mem_of_lt {α : Type} (l : List α) (i : Nat) (hi : i < l.length) (d : α) :
    l.getD i d ∈ l := by
  rw [List.getD_eq_getElem?_getD, List.getElem?_eq_getElem hi]
  exact List.getElem_mem hi

/-- C3 (counterexample): a surviving row key whose `Number`-column parse
fails: a filename with a 23-digit leading number yields a canonical key
whose digit run exceeds the int64 range, so `astype(int)` raises
`OverflowError` (`none`) on that row. -/
theorem C3_number_column_counterexample :
    (create_file_matrix [("A", DriveEntry.folder
      [("99999999999999999999999 Song.mp3", DriveEntry.file)])]).rows =
      ["99999999999999999999999 song"] ∧
    (create_file_matrix [("A", DriveEntry.folder
      [("99999999999999999999999 Song.mp3", DriveEntry.file)])]).numbers =
      [none] := by
  constructor
  · decide
  · decide

/-- C3 (amended): every non-empty key produced by `normalize` starts with
a digit run (carrying the integer value parsed from the filename's
leading digits) followed by a single space — the next character is
neither a digit nor a space — and the `Number` column parse succeeds on
every row key whose digit-run value fits in a signed 64-bit integer
(`astype(int)` converts through numpy `int64` and raises `OverflowError`
beyond that range, see `C3_number_column_counterexample`). -/
theorem C3_number_column :
    (∀ y : String, clean_filename y ≠ "" →
      ∃ ds nm, (clean_filename y).data = ds ++ ' ' :: nm ∧ ds ≠ [] ∧
        (∀ c ∈ ds, isPyDigit c = true) ∧
        natVal ds = natVal (y.data.takeWhile isPyDigit) ∧ nm ≠ [] ∧
        (∀ c, nm.head? = some c → isPyDigit c = false ∧ isPySpace c = false)) ∧
    (∀ fd : List (String × DriveEntry), ∀ i : Nat,
      i < (create_file_matrix fd).rows.length →
      natVal (((create_file_matrix fd).rows.getD i "").data.takeWhile isPyDigit) ≤
        9223372036854775807 →
      ((create_file_matrix fd).numbers.getD i none).isSome = true) := by
  refine ⟨clean_filename_key_shape, ?_⟩
  intro fd i hi hbound
  have hnum : (create_file_matrix fd).numbers.getD i none =
      pyInt? (firstTok ((create_file_matrix fd).rows.getD i "")) := by
    rw [create_file_matrix_numbers]
    exact map_getD_of_lt _ _ i hi none ""
  have hr : (create_file_matrix fd).rows.getD i "" ∈ (create_file_matrix fd).rows :=
    getD_mem_of_lt _ i hi ""
  obtain ⟨hne, p, hp, hrp⟩ := (mem_rows_iff fd _).mp hr
  obtain ⟨q, hq, rfl⟩ := List.mem_map.mp hp
  obtain ⟨g, hg, hgr⟩ := List.mem_map.mp hrp
  obtain ⟨ds, nm, hdata, hdne, hdig, hval, hnmne, hhead⟩ :=
    clean_filename_key_shape g.1 (by rw [hgr]; exact hne)
  have htw : ((create_file_matrix fd).rows.getD i "").data.takeWhile isPyDigit = ds := by
    rw [← hgr, hdata, takeWhile_all_append _ _ hdig,
      List.takeWhile_cons_of_neg (by decide), List.append_nil]
  have hft : firstTok ((create_file_matrix fd).rows.getD i "") = ⟨ds⟩ := by
    unfold firstTok
    rw [← hgr, hdata,
      takeWhile_all_append _ _ (fun c hc => digit_ne_blank (hdig c hc)),
      List.takeWhile_cons_of_neg (by decide), List.append_nil]
  rw [htw] at hbound
  rw [hnum, hft, pyInt_digits ds hdne hdig hbound]
  rfl

/-- C3 (witness): the `Number` parse succeeds on a concrete matrix row
whose digit run fits in int64. -/
theorem C3_number_column_witness :
    ((create_file_matrix
      [("A", DriveEntry.folder [("1 Song.mp3", DriveEntry.file)])]).numbers.getD
        0 none).isSome = true :=
  C3_number_column.2 [("A", DriveEntry.folder [("1 Song.mp3", DriveEntry.file)])] 0
    (by decide) (by decide)

/-! ### Matrix facts -/

theorem matrix_cols_def (fd : List (String × DriveEntry)) :
    (create_file_matrix fd).cols =
      sortStrings (((cleanedDict fd).map Prod.fst).dedup) := rfl

theorem matrix_cells_def (fd : List (String × DriveEntry)) :
    (create_file_matrix fd).cells =
      (create_file_matrix fd).rows.map (fun r =>
        (create_file_matrix fd).cols.map (fun c =>
          if r ∈ lookupLast (cleanedDict fd) c then "yes" else "no")) := rfl

theorem sortStrings_sorted (l : List String) :
    (sortStrings l).Sorted (fun a b => a ≤ b) :=
  List.sorted_insertionSort _ l

theorem sortStrings_perm (l : List String) : (sortStrings l).Perm l :=
  List.perm_insertionSort _ l

theorem mem_folderEntries {fd : List (String × DriveEntry)} {n : String}
    {fs : List (String × DriveEntry)} :
    (n, fs) ∈ folderEntries fd ↔ (n, DriveEntry.folder fs) ∈ fd := by
  unfold folderEntries
  rw [List.mem_filterMap]
  constructor
  · rintro ⟨⟨a1, a2⟩, ha, he⟩
    cases a2 with
    | file => cases he
    | folder g =>
      simp only [Option.some.injEq, Prod.mk.injEq] at he
      rw [← he.1, ← he.2]
      exact ha
  · intro h
    exact ⟨(n, DriveEntry.folder fs), h, rfl⟩

theorem mem_cols_iff (fd : List (String × DriveEntry)) (c : String) :
    c ∈ (create_file_matrix fd).cols ↔ ∃ fs, (c, DriveEntry.folder fs) ∈ fd := by
  rw [matrix_cols_def]
  rw [(sortStrings_perm _).mem_iff, List.mem_dedup]
  unfold cleanedDict
  rw [List.map_map, List.mem_map]
  constructor
  · rintro ⟨⟨n, fs⟩, hq, rfl⟩
    exact ⟨fs, mem_folderEntries.mp hq⟩
  · rintro ⟨fs, h⟩
    exact ⟨(c, fs), mem_folderEntries.mpr h, rfl⟩

theorem folderEntries_names_sublist (fd : List (String × DriveEntry)) :
    ((folderEntries fd).map Prod.fst).Sublist (fd.map Prod.fst) := by
  induction fd with
  | nil => exact List.Sublist.refl _
  | cons p rest ih =>
    cases hp : p.2 with
    | file =>
      rw [folderEntries, List.filterMap_cons, hp]
      exact ih.cons _
    | folder fs =>
      rw [folderEntries, List.filterMap_cons, hp]
      rw [List.map_cons, List.map_cons]
      exact ih.cons₂ _

theorem cleanedDict_names_nodup {fd : List (String × DriveEntry)}
    (h : (fd.map Prod.fst).Nodup) : ((cleanedDict fd).map Prod.fst).Nodup := by
  unfold cleanedDict
  rw [List.map_map]
  exact (folderEntries_names_sublist fd).nodup h

theorem lookupLast_eq_of_mem : ∀ {l : List (String × List String)},
    (l.map Prod.fst).Nodup → ∀ {f : String} {ks : List String},
    (f, ks) ∈ l → lookupLast l f = ks := by
  intro l
  induction l with
  | nil => intro _ f ks h; cases h
  | cons a tl ih =>
    intro hnod f ks hmem
    rw [List.map_cons, List.nodup_cons] at hnod
    rcases List.mem_cons.mp hmem with he | htl
    · subst he
      unfold lookupLast
      rw [List.filter_cons_of_pos (by simp)]
      have htlf : tl.filter (fun p => decide (p.1 = f)) = [] := by
        rw [List.filter_eq_nil_iff]
        intro p hp
        simp only [decide_eq_true_eq]
        intro hpf
        have hm := List.mem_map_of_mem Prod.fst hp
        rw [hpf] at hm
        exact hnod.1 hm
      rw [htlf, List.getLast?_singleton]
      rfl
    · have hne : a.1 ≠ f := by
        intro he
        have hm := List.mem_map_of_mem Prod.fst htl
        rw [← he] at hm
        exact hnod.1 hm
      unfold lookupLast
      rw [List.filter_cons_of_neg (by simpa using hne)]
      exact ih hnod.2 htl

theorem matrix_rows_nodup (fd : List (String × DriveEntry)) :
    (create_file_matrix fd).rows.Nodup :=
  (sortStrings_perm _).nodup_iff.mpr (List.nodup_dedup _)

theorem mem_cleanedDict_of_folder {fd : List (String × DriveEntry)} {f : String}
    {files : List (String × DriveEntry)} (hf : (f, DriveEntry.folder files) ∈ fd) :
    (f, folderKeys files) ∈ cleanedDict fd :=
  List.mem_map_of_mem _ (mem_folderEntries.mpr hf)

/-- C4: with a well-formed listing (folder names distinct, as in a Python
dict), the cell at row `i`, column `j` labelled `f` is `"yes"` iff the row
key lies in folder `f`'s canonical key set, and column `f` contains
exactly as many `"yes"` cells as `f` has distinct non-empty canonical
keys. -/
theorem C4_presence_cells (fd : List (String × DriveEntry))
    (hnod : (fd.map Prod.fst).Nodup) (f : String)
    (files : List (String × DriveEntry))
    (hf : (f, DriveEntry.folder files) ∈ fd)
    (i j : Nat) (hi : i < (create_file_matrix fd).rows.length)
    (hj : j < (create_file_matrix fd).cols.length)
    (hcol : (create_file_matrix fd).cols.getD j "" = f) :
    (((create_file_matrix fd).cells.getD i []).getD j "" = "yes" ↔
      (create_file_matrix fd).rows.getD i "" ∈ folderKeys files) ∧
    ((create_file_matrix fd).cells.map (fun row => row.getD j "")).count "yes" =
      ((folderKeys files).dedup.filter (fun k => k ≠ "")).length := by
  have hlook : lookupLast (cleanedDict fd) f = folderKeys files :=
    lookupLast_eq_of_mem (cleanedDict_names_nodup hnod) (mem_cleanedDict_of_folder hf)
  constructor
  · rw [matrix_cells_def]
    rw [map_getD_of_lt _ _ i hi [] ""]
    rw [map_getD_of_lt _ _ j hj "" ""]
    rw [hcol, hlook]
    by_cases hmem : (create_file_matrix fd).rows.getD i "" ∈ folderKeys files
    · rw [if_pos hmem]
      exact iff_of_true rfl hmem
    · rw [if_neg hmem]
      exact iff_of_false (by decide) hmem
  · have hcolmap : (create_file_matrix fd).cells.map (fun row => row.getD j "") =
        (create_file_matrix fd).rows.map
          (fun r => if r ∈ folderKeys files then "yes" else "no") := by
      rw [matrix_cells_def, List.map_map]
      apply List.map_congr_left
      intro r _
      show ((create_file_matrix fd).cols.map _).getD j "" = _
      rw [map_getD_of_lt _ _ j hj "" "", hcol, hlook]
    rw [hcolmap]
    have hcount : ((create_file_matrix fd).rows.map
        (fun r => if r ∈ folderKeys files then "yes" else "no")).count "yes" =
        (create_file_matrix fd).rows.countP (fun r => decide (r ∈ folderKeys files)) := by
      show List.countP _ _ = _
      rw [List.countP_map]
      apply List.countP_congr
      intro r _
      by_cases h : r ∈ folderKeys files
      · simp [h]
      · simp [h]
    rw [hcount, List.countP_eq_length_filter]
    have hAnodup : ((create_file_matrix fd).rows.filter
        (fun r => decide (r ∈ folderKeys files))).Nodup :=
      (matrix_rows_nodup fd).filter _
    have hBnodup : ((folderKeys files).dedup.filter (fun k => k ≠ "")).Nodup :=
      (List.nodup_dedup _).filter _
    have hmemiff : ∀ r, r ∈ (create_file_matrix fd).rows.filter
        (fun r => decide (r ∈ folderKeys files)) ↔
        r ∈ (folderKeys files).dedup.filter (fun k => k ≠ "") := by
      intro r
      rw [List.mem_filter, List.mem_filter, List.mem_dedup, mem_rows_iff]
      simp only [decide_eq_true_eq]
      constructor
      · rintro ⟨⟨hne, _⟩, hks⟩
        exact ⟨hks, by simpa using hne⟩
      · rintro ⟨hks, hne⟩
        exact ⟨⟨by simpa using hne, (f, folderKeys files),
          mem_cleanedDict_of_folder hf, hks⟩, hks⟩
    exact ((List.perm_ext_iff_of_nodup hAnodup hBnodup).mpr hmemiff).length_eq

/-- C4 (witness): the yes-count of a concrete column. -/
theorem C4_presence_cells_witness :
    ((create_file_matrix [("A", DriveEntry.folder [("1 Song.mp3", DriveEntry.file)])]).cells.map
        (fun row => row.getD 0 "")).count "yes" =
      ((folderKeys [("1 Song.mp3", DriveEntry.file)]).dedup.filter
        (fun k => k ≠ "")).length :=
  (C4_presence_cells [("A", DriveEntry.folder [("1 Song.mp3", DriveEntry.file)])]
    (by decide) "A" [("1 Song.mp3", DriveEntry.file)] (List.mem_singleton.mpr rfl)
    0 0 (by decide) (by decide) (by decide)).2

/-- C5: for a well-formed listing (folder names distinct, as in a Python
dict), the row labels are exactly the non-empty canonical keys of the
folders' files, sorted and without duplicates, and the columns are exactly
the folder names (leaf entries contribute none), sorted. -/
theorem C5_rows_cols (fd : List (String × DriveEntry))
    (_hnod : (fd.map Prod.fst).Nodup) :
    (create_file_matrix fd).rows.Sorted (fun a b => a < b) ∧
    (∀ r, r ∈ (create_file_matrix fd).rows ↔
      (r ≠ "" ∧ ∃ f files, (f, DriveEntry.folder files) ∈ fd ∧
        ∃ g ∈ files, r = clean_filename g.1)) ∧
    (create_file_matrix fd).cols.Sorted (fun a b => a < b) ∧
    (∀ c, c ∈ (create_file_matrix fd).cols ↔
      ∃ files, (c, DriveEntry.folder files) ∈ fd) := by
  refine ⟨?_, ?_, ?_, mem_cols_iff fd⟩
  · exact (sortStrings_sorted _).lt_of_le (matrix_rows_nodup fd)
  · intro r
    rw [mem_rows_iff]
    constructor
    · rintro ⟨hne, p, hp, hrp⟩
      obtain ⟨⟨n, fs⟩, hq, rfl⟩ := List.mem_map.mp hp
      obtain ⟨g, hg, rfl⟩ := List.mem_map.mp hrp
      exact ⟨hne, n, fs, mem_folderEntries.mp hq, g, hg, rfl⟩
    · rintro ⟨hne, n, fs, hmem, g, hg, rfl⟩
      exact ⟨hne, (n, folderKeys fs), mem_cleanedDict_of_folder hmem,
        List.mem_map_of_mem _ hg⟩
  · have hnodc : (((cleanedDict fd).map Prod.fst).dedup).Nodup := List.nodup_dedup _
    rw [matrix_cols_def]
    exact (sortStrings_sorted _).lt_of_le
      ((sortStrings_perm _).nodup_iff.mpr hnodc)

/-- C5 (witness): sortedness of the rows of a concrete matrix. -/
theorem C5_rows_cols_witness :
    (create_file_matrix [("A", DriveEntry.folder
      [("2 B.mp3", DriveEntry.file), ("1 A.mp3", DriveEntry.file)])]).rows.Sorted
      (fun a b => a < b) :=
  (C5_rows_cols [("A", DriveEntry.folder
    [("2 B.mp3", DriveEntry.file), ("1 A.mp3", DriveEntry.file)])] (by decide)).1

theorem toFinset_flatten_card_le (L : List (List String)) :
    L.flatten.toFinset.card ≤ (L.map (fun l => l.toFinset.card)).sum := by
  induction L with
  | nil => simp
  | cons l L' ih =>
    rw [List.flatten_cons, List.toFinset_append, List.map_cons, List.sum_cons]
    exact le_trans (Finset.card_union_le _ _) (Nat.add_le_add_left ih _)

/-- C8: the number of matrix rows is at most the total number of distinct
filenames across all folders of the listing (keys can collide and empty
keys are dropped). -/
theorem C8_row_bound (fd : List (String × DriveEntry)) :
    (create_file_matrix fd).rows.length ≤
      ((folderEntries fd).map (fun p => ((p.2.map Prod.fst).dedup).length)).sum := by
  have h1 : (create_file_matrix fd).rows.length =
      ((((cleanedDict fd).map Prod.snd).flatten.filter
        (fun k => decide (k ≠ ""))).dedup).length :=
    (sortStrings_perm _).length_eq
  rw [h1]
  rw [← List.card_toFinset]
  have h2 : (((cleanedDict fd).map Prod.snd).flatten.filter
      (fun k => decide (k ≠ ""))).toFinset.card ≤
      (((cleanedDict fd).map Prod.snd).flatten).toFinset.card := by
    apply Finset.card_le_card
    intro a ha
    rw [List.mem_toFinset] at ha ⊢
    exact (List.filter_sublist _).subset ha
  refine le_trans h2 (le_trans (toFinset_flatten_card_le _) ?_)
  unfold cleanedDict
  rw [List.map_map, List.map_map]
  apply List.sum_le_sum
  intro p _
  show (folderKeys p.2).toFinset.card ≤ ((p.2.map Prod.fst).dedup).length
  have hmm : folderKeys p.2 = (p.2.map Prod.fst).map clean_filename := by
    rw [List.map_map]
    rfl
  rw [hmm, ← List.card_toFinset]
  apply Finset.card_le_card_of_surjOn clean_filename
  intro b hb
  simp only [Finset.coe_sort_coe, Finset.mem_coe, List.mem_toFinset, List.mem_map] at hb
  obtain ⟨a, ha, rfl⟩ := hb
  exact ⟨a, by simpa [List.mem_toFinset] using ha, rfl⟩

theorem filtered_row_getD : ∀ (cols row : List String), cols.Nodup →
    row.length = cols.length → ∀ {f : String}, f ∈ cols → f ≠ MISC →
    (((cols.zip row).filter (fun p => p.1 ≠ MISC)).map Prod.snd).getD
      ((cols.filter (fun c => c ≠ MISC)).indexOf f) "" =
      row.getD (cols.indexOf f) "" := by
  intro cols
  induction cols with
  | nil => intro row _ _ f hf; cases hf
  | cons c cs ih =>
    intro row hnod hlen f hf hfm
    cases row with
    | nil => cases hlen
    | cons r rs =>
      rw [List.nodup_cons] at hnod
      rw [List.length_cons, List.length_cons] at hlen
      rw [List.zip_cons_cons]
      by_cases hc : c = MISC
      · rw [List.filter_cons_of_neg (by simpa using hc),
          List.filter_cons_of_neg (by simpa using hc)]
        have hfc : f ≠ c := fun he => hfm (he.trans hc)
        rw [List.indexOf_cons_ne _ (by simpa using (Ne.symm hfc))]
        simp only [Nat.succ_eq_add_one, List.getD_cons_succ]
        exact ih rs hnod.2 (by omega) (List.mem_of_ne_of_mem hfc hf) hfm
      · rw [List.filter_cons_of_pos (by simpa using hc),
          List.filter_cons_of_pos (by simpa using hc)]
        by_cases hfc : f = c
        · subst hfc
          rw [List.indexOf_cons_self, List.indexOf_cons_self]
          rfl
        · rw [List.indexOf_cons_ne _ (by simpa using (Ne.symm hfc)),
            List.indexOf_cons_ne _ (by simpa using (Ne.symm hfc)), List.map_cons]
          simp only [Nat.succ_eq_add_one, List.getD_cons_succ]
          exact ih rs hnod.2 (by omega) (List.mem_of_ne_of_mem hfc hf) hfm

/-- C9: when the hardcoded column is present (and the matrix is
rectangular with distinct column labels), `filter_matrix` succeeds and
removes exactly that column: rows, the `Number` column, the other column
labels, and every remaining cell (addressed by column label) are
unchanged. -/
theorem C9_filter_removes_column (m : FileMatrix) (hmem : MISC ∈ m.cols)
    (hnod : m.cols.Nodup) (hrect : ∀ row ∈ m.cells, row.length = m.cols.length) :
    ∃ m', filter_matrix m = some m' ∧ m'.rows = m.rows ∧
      m'.numbers = m.numbers ∧
      m'.cols = m.cols.filter (fun c => c ≠ MISC) ∧
      (∀ f ∈ m.cols, f ≠ MISC →
        m'.cells.map (fun row => row.getD (m'.cols.indexOf f) "") =
          m.cells.map (fun row => row.getD (m.cols.indexOf f) "")) := by
  refine ⟨⟨m.rows, m.numbers, m.cols.filter (fun c => c ≠ MISC),
    m.cells.map (fun row =>
      ((m.cols.zip row).filter (fun p => p.1 ≠ MISC)).map Prod.snd)⟩,
    ?_, rfl, rfl, rfl, ?_⟩
  · unfold filter_matrix
    rw [if_pos hmem]
  · intro f hf hfm
    show (m.cells.map _).map _ = _
    rw [List.map_map]
    apply List.map_congr_left
    intro row hrow
    exact filtered_row_getD m.cols row hnod (hrect row hrow) hf hfm

/-- C9 (witness): filtering a concrete matrix with the hardcoded column. -/
theorem C9_filter_removes_column_witness :
    ∃ m', filter_matrix
        ⟨["1 a"], [some 1],
         ["A", "VJE MISCELLANEOUS PARTS (VOCAL, VIBRAPHONE, ETC.)"],
         [["yes", "no"]]⟩ = some m' ∧
      m'.rows = ["1 a"] ∧ m'.numbers = [some 1] ∧
      m'.cols = (["A", "VJE MISCELLANEOUS PARTS (VOCAL, VIBRAPHONE, ETC.)"].filter
        (fun c => c ≠ MISC)) ∧
      (∀ f ∈ ["A", "VJE MISCELLANEOUS PARTS (VOCAL, VIBRAPHONE, ETC.)"], f ≠ MISC →
        m'.cells.map (fun row => row.getD (m'.cols.indexOf f) "") =
          [["yes", "no"]].map (fun row =>
            row.getD ((["A", "VJE MISCELLANEOUS PARTS (VOCAL, VIBRAPHONE, ETC.)"]).indexOf f)
              "")) :=
  C9_filter_removes_column
    ⟨["1 a"], [some 1],
     ["A", "VJE MISCELLANEOUS PARTS (VOCAL, VIBRAPHONE, ETC.)"],
     [["yes", "no"]]⟩ (by decide) (by decide) (by decide)

/-- C10: when no column carries the hardcoded label, `filter_matrix`
raises (`KeyError`, modelled as `none`) instead of returning the matrix;
in particular the pipeline fails on any listing with no folder of that
exact name. -/
theorem C10_filter_raises :
    (∀ m : FileMatrix, MISC ∉ m.cols → filter_matrix m = none) ∧
    (∀ fd : List (String × DriveEntry),
      MISC ∉ (folderEntries fd).map Prod.fst →
      filter_matrix (create_file_matrix fd) = none) := by
  have part1 : ∀ m : FileMatrix, MISC ∉ m.cols → filter_matrix m = none := by
    intro m hm
    unfold filter_matrix
    rw [if_neg hm]
  refine ⟨part1, ?_⟩
  intro fd h
  apply part1
  rw [mem_cols_iff]
  rintro ⟨fs, hfs⟩
  exact h (List.mem_map_of_mem Prod.fst (mem_folderEntries.mpr hfs))

/-- C10 (witness): `filter_matrix` fails on a concrete matrix and on the
matrix built from a concrete listing without the hardcoded folder. -/
theorem C10_filter_raises_witness :
    filter_matrix ⟨[], [], ["A"], []⟩ = none ∧
    filter_matrix (create_file_matrix
      [("A", DriveEntry.folder [("1 Song.mp3", DriveEntry.file)])]) = none :=
  ⟨C10_filter_raises.1 ⟨[], [], ["A"], []⟩ (by decide),
   C10_filter_raises.2 [("A", DriveEntry.folder [("1 Song.mp3", DriveEntry.file)])]
     (by decide)⟩

/-- C6 (witness): a filename without a leading digit is discarded. -/
theorem C6_discard_signal_witness : clean_filename "zz.mp3" = "" :=
  C6_discard_signal.2.2 "zz.mp3" (by decide)
